import Mathlib

/-!
A verification development for the go-tlasca contrast-map core
(`internal/tlasca/tlasca.go`).

The Go code is shallowly embedded: grayscale images become a structure with a
pixel function, the per-window statistics loop of `temporalWindowContrast`
becomes a finite sum over the window, and the row-partitioned worker pool of
`calculateContrastMap` becomes an explicit fold that writes each worker's row
range into a shared row buffer.  Float64 arithmetic is modelled by exact real
arithmetic; the float-to-byte conversion `byte(math.Min(v*255, 255))` is
modelled by `min ⌊v * 255⌋ 255` (Go's float-to-integer conversion truncates
toward zero, and all scaled values here are non-negative).
-/

namespace GoTlasca

/-- A grayscale frame: models Go `image.Gray` whose bounds have `Min = (0,0)`
(every image in this program is produced by `image.NewGray(image.Rect(0,0,w,h))`
or by `ConvertToGray` of such bounds).  `pix x y` is the stored intensity. -/
structure GrayImage where
  width : ℕ
  height : ℕ
  pix : ℕ → ℕ → ℕ

instance : Inhabited GrayImage := ⟨⟨0, 0, fun _ _ => 0⟩⟩

/-- Go standard library `img.GrayAt(x, y).Y`: for a point outside the
image rectangle, `Gray.GrayAt` returns the zero `color.Gray`, i.e. intensity 0. -/
def grayAt (img : GrayImage) (x y : ℕ) : ℕ :=
  if x < img.width ∧ y < img.height then img.pix x y else 0

/-- A frame of dimensions `w × h` whose pixels all hold intensity `v`. -/
def constFrame (w h v : ℕ) : GrayImage := ⟨w, h, fun _ _ => v⟩

/-- The time series `values` of `temporalWindowContrast`: the intensity of
pixel `(px, py)` in each frame, in frame order. -/
noncomputable def pixelSeries (images : List GrayImage) (px py : ℕ) : List ℝ :=
  images.map (fun img => (grayAt img px py : ℝ))

/-- The body of the per-pixel loop of `temporalWindowContrast`: mean of the
time series, sample variance with divisor `len(values) - 1`, standard
deviation, and the guarded ratio `stdDev / mean` (0 when `mean ≤ 0`). -/
noncomputable def pixelContrast (images : List GrayImage) (px py : ℕ) : ℝ :=
  let values := pixelSeries images px py
  let mean := values.sum / values.length
  let sumDiff2 := (values.map (fun v => (v - mean) ^ 2)).sum
  let variance := sumDiff2 / ((values.length : ℝ) - 1)
  let stdDev := Real.sqrt variance
  if mean > 0 then stdDev / mean else 0

/-- The function `temporalWindowContrast` from tlasca.go: the accumulated per-pixel
contrasts over the `windowSize × windowSize` window at top-left `(x, y)`,
divided by `pixelCount = windowSize * windowSize`. -/
noncomputable def temporalWindowContrast (windowSize : ℕ) (images : List GrayImage)
    (x y : ℕ) : ℝ :=
  (∑ dy ∈ Finset.range windowSize, ∑ dx ∈ Finset.range windowSize,
      pixelContrast images (x + dx) (y + dy)) / ((windowSize * windowSize : ℕ) : ℝ)

/-- One output row of contrast values, as built by the inner `x` loop of a
worker goroutine (`row` in the Go code). -/
noncomputable def computeRow (windowSize : ℕ) (images : List GrayImage)
    (widthNew y : ℕ) : List ℝ :=
  (List.range widthNew).map (fun x => temporalWindowContrast windowSize images x y)

/-- The `startY` of worker `i`: `i * rowsPerWorker` with
`rowsPerWorker = heightNew / numWorkers` (integer division). -/
def workerStart (heightNew numWorkers i : ℕ) : ℕ := i * (heightNew / numWorkers)

/-- The `endY` of worker `i`: `(i+1) * rowsPerWorker`, except the last worker,
which takes all remaining rows (`endY = heightNew`). -/
def workerEnd (heightNew numWorkers i : ℕ) : ℕ :=
  if i = numWorkers - 1 then heightNew else (i + 1) * (heightNew / numWorkers)

/-- The list of row indices processed by worker `i`
(the Go loop `for y := startY; y < endY; y++`). -/
def workerRange (heightNew numWorkers i : ℕ) : List ℕ :=
  List.range' (workerStart heightNew numWorkers i)
    (workerEnd heightNew numWorkers i - workerStart heightNew numWorkers i)

/-- The shared row buffer `listContrast` after all workers have finished:
each worker `i` writes, for every `y` in its range, the computed row into
slot `y`.  Because the row ranges are disjoint, the sequential fold over
workers models any interleaving of the goroutines. -/
noncomputable def listContrast (numWorkers windowSize : ℕ) (images : List GrayImage)
    (widthNew heightNew : ℕ) : ℕ → List ℝ :=
  (List.range numWorkers).foldl
    (fun buf i =>
      (workerRange heightNew numWorkers i).foldl
        (fun b y => Function.update b y (computeRow windowSize images widthNew y)) buf)
    (fun _ => [])

/-- The scaling step `byte(math.Min(v*255, 255))`: Go's float-to-byte
conversion truncates toward zero, so for a non-negative value this is
`min ⌊v * 255⌋ 255`. -/
noncomputable def scale (c : ℝ) : ℕ := min (Int.toNat ⌊c * 255⌋) 255

/-- The output image (`changeMap`): a grid of byte intensities.  `pix x y`
is 0 outside the `width × height` rectangle (Go `SetGray` ignores points
outside the bounds and unset pixels stay zero). -/
@[ext]
structure ContrastMap where
  width : ℕ
  height : ℕ
  pix : ℕ → ℕ → ℕ

/-- The function `calculateContrastMap` from tlasca.go, with the worker count
(`runtime.NumCPU()` in Go, always at least 1) as an explicit parameter:
output dimensions are `bounds.Dx - windowSize + 1` and
`bounds.Dy - windowSize + 1` taken from the first frame, the rows are filled
by the partitioned workers, and each cell is scaled into a byte. -/
noncomputable def calculateContrastMap (numWorkers windowSize : ℕ)
    (grayImages : List GrayImage) : ContrastMap :=
  let widthNew := ((grayImages.headI.width : ℤ) - windowSize + 1).toNat
  let heightNew := ((grayImages.headI.height : ℤ) - windowSize + 1).toNat
  { width := widthNew
    height := heightNew
    pix := fun x y =>
      if x < widthNew ∧ y < heightNew then
        scale ((listContrast numWorkers windowSize grayImages widthNew heightNew y).getD x 0)
      else 0 }

/-- The purely sequential row-by-row reference computation: every cell is the
scaled window contrast, with no partitioning involved.  This is the target of
the refinement claim about worker-count invariance. -/
noncomputable def seqContrastMap (windowSize : ℕ) (grayImages : List GrayImage) : ContrastMap :=
  let widthNew := ((grayImages.headI.width : ℤ) - windowSize + 1).toNat
  let heightNew := ((grayImages.headI.height : ℤ) - windowSize + 1).toNat
  { width := widthNew
    height := heightNew
    pix := fun x y =>
      if x < widthNew ∧ y < heightNew then
        scale (temporalWindowContrast windowSize grayImages x y)
      else 0 }

/-- Modelled from the spec §4.2: the precondition check described there —
`len(frames) ≥ 2`, all frames share the dimensions of the first, and
`1 ≤ windowSize ≤ min(W, H)`.  The Go source contains no such check; this
definition exists only to state what the spec claims is validated. -/
def specValidInput (windowSize : ℕ) (frames : List GrayImage) : Bool :=
  decide (2 ≤ frames.length) &&
    frames.all (fun f =>
      f.width == frames.headI.width && f.height == frames.headI.height) &&
    decide (1 ≤ windowSize) &&
    decide (windowSize ≤ min frames.headI.width frames.headI.height)

/-- Modelled from the spec §4.1, for the refinement claim about the statistics
formula: per-pixel mean over `N` frames, sample variance with divisor `N - 1`,
and the guarded ratio, written index-wise over `frame[t].intensity(px, py)`
exactly as the spec states it. -/
noncomputable def specPixelContrast (images : List GrayImage) (px py : ℕ) : ℝ :=
  let N := images.length
  let v : ℕ → ℝ := fun t => ((images.getD t default).pix px py : ℝ)
  let mean := (∑ t ∈ Finset.range N, v t) / (N : ℝ)
  let sVar := (∑ t ∈ Finset.range N, (v t - mean) ^ 2) / ((N : ℝ) - 1)
  if mean > 0 then Real.sqrt sVar / mean else 0

/-- Modelled from the spec §4.1: the window aggregate — the spatial average of
`specPixelContrast` over the `S × S` window. -/
noncomputable def specWindowContrast (S : ℕ) (images : List GrayImage) (x y : ℕ) : ℝ :=
  (∑ dy ∈ Finset.range S, ∑ dx ∈ Finset.range S,
      specPixelContrast images (x + dx) (y + dy)) / ((S * S : ℕ) : ℝ)

/-! ### List/Finset bridging lemmas -/

/-- The sum of a mapped list as a `Finset.range` sum over positions. -/
theorem sum_map_eq_sum_range {α : Type} [Inhabited α] (f : α → ℝ) (l : List α) :
    (l.map f).sum = ∑ t ∈ Finset.range l.length, f (l.getD t default) := by
  induction l with
  | nil => simp
  | cons a l ih =>
      rw [List.map_cons, List.sum_cons, List.length_cons, Finset.sum_range_succ']
      simp only [List.getD_cons_succ, List.getD_cons_zero, ih]
      exact (add_comm _ _)

/-! ### Row-buffer lemmas -/

/-- A fold of row writes, all drawn from the same row function `f`, yields
`f y` at every slot `y` that was written and leaves other slots untouched. -/
theorem foldl_update_eq (f : ℕ → List ℝ) (init : ℕ → List ℝ) (l : List ℕ) (y : ℕ) :
    (l.foldl (fun b z => Function.update b z (f z)) init) y =
      if y ∈ l then f y else init y := by
  induction l generalizing init with
  | nil => simp
  | cons a l ih =>
      rw [List.foldl_cons, ih]
      by_cases h : y ∈ l
      · simp [h]
      · by_cases h2 : y = a
        · subst h2; simp [h]
        · simp [h, h2, Function.update_noteq h2]

/-- Folding worker-by-worker and row-by-row is the same as folding over the
concatenation of all worker row ranges. -/
theorem foldl_foldl_eq_foldl_flatMap {α β γ : Type} (w : α → List β) (g : γ → β → γ) :
    ∀ (l : List α) (init : γ),
      l.foldl (fun b i => (w i).foldl g b) init = (l.flatMap w).foldl g init := by
  intro l
  induction l with
  | nil => intro init; simp
  | cons a l ih => intro init; simp [List.flatMap_cons, List.foldl_append, ih]

/-! ### Partition lemmas for the worker row ranges -/

/-- A non-last worker's range is exactly `rowsPerWorker` consecutive rows. -/
theorem workerRange_of_lt (heightNew numWorkers i : ℕ) (h : i + 1 < numWorkers) :
    workerRange heightNew numWorkers i =
      List.range' (i * (heightNew / numWorkers)) (heightNew / numWorkers) := by
  have hne : i ≠ numWorkers - 1 := by omega
  unfold workerRange workerStart workerEnd
  rw [if_neg hne]
  congr 1
  rw [add_one_mul, Nat.add_sub_cancel_left]

/-- The last worker's range runs from its `startY` to `heightNew`. -/
theorem workerRange_last (heightNew numWorkers : ℕ) :
    workerRange heightNew numWorkers (numWorkers - 1) =
      List.range' ((numWorkers - 1) * (heightNew / numWorkers))
        (heightNew - (numWorkers - 1) * (heightNew / numWorkers)) := by
  unfold workerRange workerStart workerEnd
  rw [if_pos rfl]

/-- Concatenating `n` consecutive chunks of size `q` gives `List.range (n * q)`. -/
theorem flatMap_chunks (q : ℕ) :
    ∀ n : ℕ, (List.range n).flatMap (fun i => List.range' (i * q) q) = List.range (n * q) := by
  intro n
  induction n with
  | zero => simp
  | succ n ih =>
      rw [List.range_succ, List.flatMap_append, ih, List.flatMap_cons, List.flatMap_nil,
        List.append_nil, List.range_eq_range', List.range_eq_range']
      have h := List.range'_append_1 0 (n * q) q
      rw [Nat.zero_add] at h
      rw [h]
      congr 1
      ring

/-- The worker ranges, concatenated in worker order, are exactly the rows
`0, 1, …, heightNew - 1`: the partition is gapless, non-overlapping, ordered,
and assigns every row exactly once. -/
theorem flatMap_workerRange (heightNew numWorkers : ℕ) (hK : 1 ≤ numWorkers) :
    (List.range numWorkers).flatMap (workerRange heightNew numWorkers) =
      List.range heightNew := by
  obtain ⟨K, rfl⟩ : ∃ K, numWorkers = K + 1 := ⟨numWorkers - 1, by omega⟩
  have hq : (K + 1) * (heightNew / (K + 1)) ≤ heightNew := by
    rw [mul_comm]
    exact Nat.div_mul_le_self heightNew (K + 1)
  have hKq : K * (heightNew / (K + 1)) ≤ heightNew := by
    calc K * (heightNew / (K + 1)) ≤ (K + 1) * (heightNew / (K + 1)) :=
          Nat.mul_le_mul_right _ (Nat.le_succ K)
      _ ≤ heightNew := hq
  rw [List.range_succ, List.flatMap_append, List.flatMap_cons, List.flatMap_nil,
    List.append_nil]
  have hfirst : (List.range K).flatMap (workerRange heightNew (K + 1)) =
      (List.range K).flatMap (fun i => List.range' (i * (heightNew / (K + 1)))
        (heightNew / (K + 1))) := by
    apply List.flatMap_congr
    intro i hi
    exact workerRange_of_lt heightNew (K + 1) i (by simpa using List.mem_range.mp hi)
  have hlast : workerRange heightNew (K + 1) K =
      List.range' (K * (heightNew / (K + 1)))
        (heightNew - K * (heightNew / (K + 1))) := by
    have h := workerRange_last heightNew (K + 1)
    simpa using h
  rw [hfirst, flatMap_chunks, hlast, List.range_eq_range', List.range_eq_range']
  have h2 := List.range'_append_1 0 (K * (heightNew / (K + 1)))
    (heightNew - K * (heightNew / (K + 1)))
  rw [Nat.zero_add] at h2
  rw [h2]
  congr 1
  rw [Nat.sub_add_cancel hKq]

/-- For at least one worker and a row index in range, the final row buffer
holds exactly the sequentially computed row. -/
theorem listContrast_eq_computeRow (numWorkers windowSize : ℕ) (images : List GrayImage)
    (widthNew heightNew y : ℕ) (hK : 1 ≤ numWorkers) (hy : y < heightNew) :
    listContrast numWorkers windowSize images widthNew heightNew y =
      computeRow windowSize images widthNew y := by
  unfold listContrast
  rw [foldl_foldl_eq_foldl_flatMap, flatMap_workerRange heightNew numWorkers hK,
    foldl_update_eq]
  simp [hy]

/-- An in-range cell of the assembled map is the scaled window contrast at
that cell. -/
theorem calculateContrastMap_pix (numWorkers windowSize : ℕ) (images : List GrayImage)
    (x y : ℕ) (hK : 1 ≤ numWorkers)
    (hx : x < ((images.headI.width : ℤ) - windowSize + 1).toNat)
    (hy : y < ((images.headI.height : ℤ) - windowSize + 1).toNat) :
    (calculateContrastMap numWorkers windowSize images).pix x y =
      scale (temporalWindowContrast windowSize images x y) := by
  unfold calculateContrastMap
  simp only
  rw [if_pos ⟨hx, hy⟩, listContrast_eq_computeRow _ _ _ _ _ _ hK hy]
  unfold computeRow
  rw [List.getD_eq_getElem?_getD]
  simp [List.getElem?_range, hx]

/-- C4: for every worker count `K ≥ 1`, the partitioned parallel computation of
`calculateContrastMap` produces exactly the same contrast map as the purely
sequential row-by-row computation; in particular the result is bit-for-bit
identical across repeated invocations and across all worker counts. -/
theorem worker_count_invariance (numWorkers windowSize : ℕ) (images : List GrayImage)
    (hK : 1 ≤ numWorkers) :
    calculateContrastMap numWorkers windowSize images = seqContrastMap windowSize images := by
  unfold calculateContrastMap seqContrastMap
  simp only
  congr 1
  funext x y
  by_cases hx : x < ((images.headI.width : ℤ) - windowSize + 1).toNat ∧
      y < ((images.headI.height : ℤ) - windowSize + 1).toNat
  · rw [if_pos hx, if_pos hx, listContrast_eq_computeRow _ _ _ _ _ _ hK hx.2]
    unfold computeRow
    rw [List.getD_eq_getElem?_getD]
    simp [List.getElem?_range, hx.1]
  · rw [if_neg hx, if_neg hx]

theorem worker_count_invariance_witness :
    1 ≤ 3 ∧ calculateContrastMap 3 1 [constFrame 3 3 50, constFrame 3 3 150] =
      seqContrastMap 1 [constFrame 3 3 50, constFrame 3 3 150] :=
  ⟨by norm_num,
    worker_count_invariance 3 1 [constFrame 3 3 50, constFrame 3 3 150] (by norm_num)⟩

/-- C5: for every output height `outH ≥ 1` and worker count `K ≥ 1`, the row
partition is contiguous, non-overlapping, gapless and ordered (its
concatenation in worker order is exactly the row list `0, …, outH - 1`, so
every row is assigned to exactly one worker), every non-last range has size
`⌊outH / K⌋`, and the last range absorbs the remainder. -/
theorem row_partition_correct (outH K : ℕ) (hH : 1 ≤ outH) (hK : 1 ≤ K) :
    ((List.range K).flatMap (workerRange outH K) = List.range outH) ∧
      (∀ i, i + 1 < K → (workerRange outH K i).length = outH / K) ∧
      (workerRange outH K (K - 1)).length = outH / K + outH % K := by
  refine ⟨flatMap_workerRange outH K hK, ?_, ?_⟩
  · intro i hi
    rw [workerRange_of_lt outH K i hi, List.length_range']
  · obtain ⟨K', rfl⟩ : ∃ n, K = n + 1 := ⟨K - 1, by omega⟩
    rw [workerRange_last, List.length_range']
    simp only [Nat.add_sub_cancel]
    have hdm := Nat.div_add_mod outH (K' + 1)
    have hmul : (K' + 1) * (outH / (K' + 1)) =
        K' * (outH / (K' + 1)) + outH / (K' + 1) := by ring
    rw [hmul] at hdm
    generalize hq : outH / (K' + 1) = q at hdm ⊢
    generalize hm : outH % (K' + 1) = m at hdm ⊢
    generalize hA : K' * q = A at hdm ⊢
    omega

theorem row_partition_correct_witness :
    1 ≤ 5 ∧ 1 ≤ 2 ∧ (List.range 2).flatMap (workerRange 5 2) = List.range 5 ∧
      (workerRange 5 2 0).length = 5 / 2 ∧
      (workerRange 5 2 (2 - 1)).length = 5 / 2 + 5 % 2 :=
  ⟨by norm_num, by norm_num,
    (row_partition_correct 5 2 (by norm_num) (by norm_num)).1,
    (row_partition_correct 5 2 (by norm_num) (by norm_num)).2.1 0 (by norm_num),
    (row_partition_correct 5 2 (by norm_num) (by norm_num)).2.2⟩

/-! ### Bridging the list-based code statistics to the index-based spec form -/

theorem pixelSeries_length (images : List GrayImage) (px py : ℕ) :
    (pixelSeries images px py).length = images.length := by
  simp [pixelSeries]

theorem pixelSeries_sum (images : List GrayImage) (px py : ℕ) :
    (pixelSeries images px py).sum =
      ∑ t ∈ Finset.range images.length, (grayAt (images.getD t default) px py : ℝ) := by
  unfold pixelSeries
  rw [sum_map_eq_sum_range]

theorem pixelSeries_sq_sum (images : List GrayImage) (px py : ℕ) (M : ℝ) :
    ((pixelSeries images px py).map (fun v => (v - M) ^ 2)).sum =
      ∑ t ∈ Finset.range images.length,
        ((grayAt (images.getD t default) px py : ℝ) - M) ^ 2 := by
  unfold pixelSeries
  rw [List.map_map, sum_map_eq_sum_range]
  simp [Function.comp]

/-- For a pixel inside every (identically sized) frame, the guarded
bounds-checked read of the code agrees with the direct pixel access of the
spec, so the per-pixel statistics agree. -/
theorem pixelContrast_eq_spec (images : List GrayImage) (px py W H : ℕ)
    (hdims : ∀ img ∈ images, img.width = W ∧ img.height = H)
    (hpx : px < W) (hpy : py < H) :
    pixelContrast images px py = specPixelContrast images px py := by
  have hpt : ∀ t ∈ Finset.range images.length,
      (grayAt (images.getD t default) px py : ℝ) =
        ((images.getD t default).pix px py : ℝ) := by
    intro t ht
    have htl : t < images.length := Finset.mem_range.mp ht
    have hmem : images.getD t default ∈ images := by
      rw [List.getD_eq_getElem _ _ htl]
      exact List.getElem_mem htl
    obtain ⟨hw, hh⟩ := hdims _ hmem
    rw [grayAt, if_pos ⟨by omega, by omega⟩]
  have hS : (∑ t ∈ Finset.range images.length,
        (grayAt (images.getD t default) px py : ℝ)) =
      ∑ t ∈ Finset.range images.length, ((images.getD t default).pix px py : ℝ) :=
    Finset.sum_congr rfl hpt
  have hS2 : ∀ M : ℝ, (∑ t ∈ Finset.range images.length,
        ((grayAt (images.getD t default) px py : ℝ) - M) ^ 2) =
      ∑ t ∈ Finset.range images.length,
        (((images.getD t default).pix px py : ℝ) - M) ^ 2 := by
    intro M
    refine Finset.sum_congr rfl ?_
    intro t ht
    rw [hpt t ht]
  unfold pixelContrast specPixelContrast
  simp only [pixelSeries_length, pixelSeries_sum, pixelSeries_sq_sum, hS, hS2]

/-- C1: for a valid frame sequence, window size and window origin,
`temporalWindowContrast` returns exactly the spec's statistic: the spatial
average over the window of the per-pixel temporal contrast
`stdDev / mean` (sample variance with divisor `N - 1`, zero when the mean is
not positive). -/
theorem temporalWindowContrast_matches_spec (S : ℕ) (images : List GrayImage)
    (x y W H : ℕ) (hN : 2 ≤ images.length)
    (hdims : ∀ img ∈ images, img.width = W ∧ img.height = H)
    (hS : 1 ≤ S) (hSW : S ≤ W) (hSH : S ≤ H)
    (hx : x + S ≤ W) (hy : y + S ≤ H) :
    temporalWindowContrast S images x y = specWindowContrast S images x y := by
  unfold temporalWindowContrast specWindowContrast
  congr 1
  refine Finset.sum_congr rfl ?_
  intro dy hdy
  refine Finset.sum_congr rfl ?_
  intro dx hdx
  have hdx' : dx < S := Finset.mem_range.mp hdx
  have hdy' : dy < S := Finset.mem_range.mp hdy
  exact pixelContrast_eq_spec images (x + dx) (y + dy) W H hdims (by omega) (by omega)

theorem temporalWindowContrast_matches_spec_witness :
    2 ≤ ([constFrame 3 3 50, constFrame 3 3 150] : List GrayImage).length ∧
      temporalWindowContrast 2 [constFrame 3 3 50, constFrame 3 3 150] 1 0 =
        specWindowContrast 2 [constFrame 3 3 50, constFrame 3 3 150] 1 0 :=
  ⟨by norm_num,
    temporalWindowContrast_matches_spec 2 [constFrame 3 3 50, constFrame 3 3 150] 1 0 3 3
      (by norm_num)
      (by intro img hmem; simp [constFrame] at hmem ⊢; rcases hmem with h | h <;> simp [h])
      (by norm_num) (by norm_num) (by norm_num) (by norm_num) (by norm_num)⟩

/-! ### Sign and degenerate-pixel facts -/

/-- Each per-pixel contribution is non-negative: either the guarded ratio of a
square root by a positive mean, or zero. -/
theorem pixelContrast_nonneg (images : List GrayImage) (px py : ℕ) :
    0 ≤ pixelContrast images px py := by
  simp only [pixelContrast]
  by_cases h : (pixelSeries images px py).sum / ((pixelSeries images px py).length : ℝ) > 0
  · rw [if_pos h]
    exact div_nonneg (Real.sqrt_nonneg _) (le_of_lt h)
  · rw [if_neg h]

/-- A pixel whose time series is constant contributes zero contrast: its
mean equals the constant, every squared deviation is zero, so the standard
deviation is zero, and the guard handles a non-positive mean. -/
theorem pixelContrast_eq_zero_of_const (images : List GrayImage) (px py : ℕ) (c : ℝ)
    (h : ∀ img ∈ images, (grayAt img px py : ℝ) = c) :
    pixelContrast images px py = 0 := by
  have hv : ∀ v ∈ pixelSeries images px py, v = c := by
    intro v hvmem
    rw [pixelSeries, List.mem_map] at hvmem
    obtain ⟨img, hmem, rfl⟩ := hvmem
    exact h img hmem
  simp only [pixelContrast]
  rcases Nat.eq_zero_or_pos (pixelSeries images px py).length with h0 | hpos
  · rw [List.length_eq_zero.mp h0]
    norm_num
  · have hlen : ((pixelSeries images px py).length : ℝ) ≠ 0 := by
      exact_mod_cast Nat.pos_iff_ne_zero.mp hpos
    have hsum : (pixelSeries images px py).sum =
        ((pixelSeries images px py).length : ℝ) * c := by
      rw [List.sum_eq_card_nsmul _ c hv, nsmul_eq_mul]
    have hmean : (pixelSeries images px py).sum /
        ((pixelSeries images px py).length : ℝ) = c := by
      rw [hsum, mul_comm, mul_div_assoc, div_self hlen, mul_one]

    have hzero : ((pixelSeries images px py).map
        (fun v => (v - (pixelSeries images px py).sum /
          ((pixelSeries images px py).length : ℝ)) ^ 2)).sum = 0 := by
      refine List.sum_eq_zero ?_
      intro z hz
      rw [List.mem_map] at hz
      obtain ⟨v, hvm, rfl⟩ := hz
      rw [hv v hvm, hmean, sub_self]
      norm_num
    rw [hzero, hmean]
    simp [Real.sqrt_zero, zero_div]

/-- C6: the window contrast is always non-negative (never negative, and in the
exact-real model never an undefined value), and any pixel of the window whose
intensity is 0 in every frame contributes exactly 0 to the aggregate. -/
theorem contrast_nonneg_zero_mean (S : ℕ) (images : List GrayImage) (x y : ℕ)
    (hN : 2 ≤ images.length) :
    0 ≤ temporalWindowContrast S images x y ∧
      ∀ dx dy, dx < S → dy < S →
        (∀ img ∈ images, grayAt img (x + dx) (y + dy) = 0) →
        pixelContrast images (x + dx) (y + dy) = 0 := by
  constructor
  · unfold temporalWindowContrast
    refine div_nonneg ?_ (by positivity)
    refine Finset.sum_nonneg ?_
    intro dy _
    refine Finset.sum_nonneg ?_
    intro dx _
    exact pixelContrast_nonneg images _ _
  · intro dx dy _ _ hz
    refine pixelContrast_eq_zero_of_const images _ _ 0 ?_
    intro img hmem
    rw [hz img hmem]
    norm_num

theorem contrast_nonneg_zero_mean_witness :
    2 ≤ ([constFrame 3 3 50, constFrame 3 3 150] : List GrayImage).length ∧
      0 ≤ temporalWindowContrast 1 [constFrame 3 3 50, constFrame 3 3 150] 0 0 :=
  ⟨by norm_num,
    (contrast_nonneg_zero_mean 1 [constFrame 3 3 50, constFrame 3 3 150] 0 0 (by norm_num)).1⟩

/-- C7: for a valid input of frame dimensions `W × H` and window size `S`,
the output map has width `W - S + 1` and height `H - S + 1`. -/
theorem output_dimension_law (numWorkers S W H : ℕ) (images : List GrayImage)
    (hN : 2 ≤ images.length)
    (hdims : ∀ img ∈ images, img.width = W ∧ img.height = H)
    (hS : 1 ≤ S) (hSW : S ≤ W) (hSH : S ≤ H) :
    (calculateContrastMap numWorkers S images).width = W - S + 1 ∧
      (calculateContrastMap numWorkers S images).height = H - S + 1 := by
  have hne : images ≠ [] := by
    intro h
    rw [h] at hN
    simp at hN
  have hmem : images.headI ∈ images := by
    cases images with
    | nil => simp at hne
    | cons a t => simp [List.headI]
  obtain ⟨hw, hh⟩ := hdims _ hmem
  unfold calculateContrastMap
  simp only
  rw [hw, hh]
  omega

theorem output_dimension_law_witness :
    2 ≤ ([constFrame 3 3 50, constFrame 3 3 150] : List GrayImage).length ∧
      (calculateContrastMap 2 2 [constFrame 3 3 50, constFrame 3 3 150]).width = 3 - 2 + 1 ∧
      (calculateContrastMap 2 2 [constFrame 3 3 50, constFrame 3 3 150]).height = 3 - 2 + 1 :=
  ⟨by norm_num,
    output_dimension_law 2 2 3 3 [constFrame 3 3 50, constFrame 3 3 150] (by norm_num)
      (by
        intro img hmem
        simp only [List.mem_cons, List.not_mem_nil, or_false] at hmem
        rcases hmem with h | h <;> simp [h, constFrame])
      (by norm_num) (by norm_num) (by norm_num)⟩

/-- C8: when all frames are pixel-for-pixel identical, every window contrast
is 0 and the resulting map is entirely zero-intensity. -/
theorem constant_sequence_zero_map (numWorkers S : ℕ) (images : List GrayImage)
    (hK : 1 ≤ numWorkers) (hconst : ∀ img ∈ images, img = images.headI) :
    (∀ x y, temporalWindowContrast S images x y = 0) ∧
      ∀ x y, (calculateContrastMap numWorkers S images).pix x y = 0 := by
  have htwc : ∀ x y, temporalWindowContrast S images x y = 0 := by
    intro x y
    unfold temporalWindowContrast
    rw [Finset.sum_eq_zero, zero_div]
    intro dy _
    refine Finset.sum_eq_zero ?_
    intro dx _
    refine pixelContrast_eq_zero_of_const images _ _
      ((grayAt images.headI (x + dx) (y + dy) : ℝ)) ?_
    intro img hmem
    rw [hconst img hmem]
  refine ⟨htwc, ?_⟩
  intro x y
  by_cases hin : x < ((images.headI.width : ℤ) - S + 1).toNat ∧
      y < ((images.headI.height : ℤ) - S + 1).toNat
  · rw [calculateContrastMap_pix _ _ _ _ _ hK hin.1 hin.2, htwc]
    simp [scale]
  · unfold calculateContrastMap
    simp only
    rw [if_neg hin]

theorem constant_sequence_zero_map_witness :
    1 ≤ 1 ∧ (calculateContrastMap 1 1 [constFrame 3 3 100, constFrame 3 3 100]).pix 0 0 = 0 :=
  ⟨le_refl 1,
    (constant_sequence_zero_map 1 1 [constFrame 3 3 100, constFrame 3 3 100] (le_refl 1)
      (by
        intro img hmem
        simp only [List.mem_cons, List.not_mem_nil, or_false] at hmem
        rcases hmem with h | h <;> simp [h, List.headI])).2 0 0⟩

/-- C10: the window contrast depends only on the pixels inside the
`S × S` window: two sequences of equal length whose frames have equal
dimensions and agree on every window pixel yield the same value, no matter
how pixels outside the window differ. -/
theorem window_noninterference (S : ℕ) (images1 images2 : List GrayImage) (x y : ℕ)
    (hlen : images1.length = images2.length)
    (hdims : ∀ t, t < images1.length →
      (images1.getD t default).width = (images2.getD t default).width ∧
        (images1.getD t default).height = (images2.getD t default).height)
    (hagree : ∀ t, t < images1.length → ∀ dx dy, dx < S → dy < S →
      (images1.getD t default).pix (x + dx) (y + dy) =
        (images2.getD t default).pix (x + dx) (y + dy)) :
    temporalWindowContrast S images1 x y = temporalWindowContrast S images2 x y := by
  have hser : ∀ dx dy, dx < S → dy < S →
      pixelSeries images1 (x + dx) (y + dy) = pixelSeries images2 (x + dx) (y + dy) := by
    intro dx dy hdx hdy
    refine List.ext_getElem (by simp [pixelSeries, hlen]) ?_
    intro i h1 h2
    have hi : i < images1.length := by simpa [pixelSeries] using h1
    have hi2 : i < images2.length := by omega
    simp only [pixelSeries, List.getElem_map]
    have e1 : images1[i] = images1.getD i default := (List.getD_eq_getElem _ _ hi).symm
    have e2 : images2[i] = images2.getD i default := (List.getD_eq_getElem _ _ hi2).symm
    rw [e1, e2]
    unfold grayAt
    rw [(hdims i hi).1, (hdims i hi).2, hagree i hi dx dy hdx hdy]
  unfold temporalWindowContrast
  congr 1
  refine Finset.sum_congr rfl ?_
  intro dy hdy
  refine Finset.sum_congr rfl ?_
  intro dx hdx
  simp only [pixelContrast]
  rw [hser dx dy (Finset.mem_range.mp hdx) (Finset.mem_range.mp hdy)]

theorem window_noninterference_witness :
    temporalWindowContrast 1 [constFrame 2 2 5, constFrame 2 2 9] 0 0 =
      temporalWindowContrast 1
        [GrayImage.mk 2 2 (fun a b => if a = 0 ∧ b = 0 then 5 else 77),
          constFrame 2 2 9] 0 0 :=
  window_noninterference 1
    [constFrame 2 2 5, constFrame 2 2 9]
    [GrayImage.mk 2 2 (fun a b => if a = 0 ∧ b = 0 then 5 else 77), constFrame 2 2 9]
    0 0 rfl
    (by
      intro t ht
      simp only [List.length_cons, List.length_nil] at ht
      interval_cases t <;> simp [constFrame])
    (by
      intro t ht dx dy hdx hdy
      simp only [List.length_cons, List.length_nil] at ht
      interval_cases t <;> interval_cases dx <;> interval_cases dy <;> simp [constFrame])

/-! ### Concrete evaluation: two 3×3 frames at 50 and 150, window size 1 -/

/-- Each window of the 50/150 pair has mean 100, sample variance 5000 and
contrast `√5000 / 100`. -/
theorem twc_50_150 (x y : ℕ) (hx : x < 3) (hy : y < 3) :
    temporalWindowContrast 1 [constFrame 3 3 50, constFrame 3 3 150] x y =
      Real.sqrt 5000 / 100 := by
  unfold temporalWindowContrast
  rw [Finset.sum_range_one, Finset.sum_range_one]
  simp only [pixelContrast, pixelSeries, List.map_cons, List.map_nil, grayAt, constFrame]
  norm_num [hx, hy]

theorem floor_sqrt5000 : ⌊Real.sqrt 5000 / 100 * 255⌋ = 180 := by
  have hs1 : (1200 / 17 : ℝ) ≤ Real.sqrt 5000 :=
    (Real.le_sqrt' (by norm_num)).mpr (by norm_num)
  have hs2 : Real.sqrt 5000 < (3620 / 51 : ℝ) :=
    (Real.sqrt_lt' (by norm_num)).mpr (by norm_num)
  rw [Int.floor_eq_iff]
  constructor
  · push_cast
    linarith
  · push_cast
    linarith

theorem scale_sqrt5000 : scale (Real.sqrt 5000 / 100) = 180 := by
  unfold scale
  rw [floor_sqrt5000]
  decide

/-- C9: two 3×3 frames, all pixels 50 in one and 150 in the other, with
window size 1: the output is a 3×3 map whose every cell holds 180
(mean 100, sample variance 5000, contrast `√5000/100 ≈ 0.7071`,
scaled intensity 180), for every worker count. -/
theorem concrete_50_150_map (numWorkers : ℕ) (hK : 1 ≤ numWorkers) :
    (calculateContrastMap numWorkers 1 [constFrame 3 3 50, constFrame 3 3 150]).width = 3 ∧
      (calculateContrastMap numWorkers 1 [constFrame 3 3 50, constFrame 3 3 150]).height = 3 ∧
      ∀ x y, x < 3 → y < 3 →
        (calculateContrastMap numWorkers 1
          [constFrame 3 3 50, constFrame 3 3 150]).pix x y = 180 := by
  refine ⟨?_, ?_, ?_⟩
  · unfold calculateContrastMap
    simp only
    norm_num [constFrame, List.headI]
    decide
  · unfold calculateContrastMap
    simp only
    norm_num [constFrame, List.headI]
    decide
  · intro x y hx hy
    have hx' : x < ((([constFrame 3 3 50, constFrame 3 3 150] :
        List GrayImage).headI.width : ℤ) - 1 + 1).toNat := by
      norm_num [constFrame, List.headI]
      omega
    have hy' : y < ((([constFrame 3 3 50, constFrame 3 3 150] :
        List GrayImage).headI.height : ℤ) - 1 + 1).toNat := by
      norm_num [constFrame, List.headI]
      omega
    rw [calculateContrastMap_pix _ _ _ _ _ hK hx' hy', twc_50_150 x y hx hy,
      scale_sqrt5000]

theorem concrete_50_150_map_witness :
    1 ≤ 2 ∧ (calculateContrastMap 2 1 [constFrame 3 3 50, constFrame 3 3 150]).pix 1 2 = 180 :=
  ⟨by norm_num, (concrete_50_150_map 2 (by norm_num)).2.2 1 2 (by norm_num) (by norm_num)⟩

/-! ### Scaling: the code truncates, the spec says round -/

/-- Five 1×1 frames with intensities 1, 1, 3, 3, 2: mean 2, sample variance
`4 / 4 = 1`, standard deviation 1, contrast exactly `1/2` — so the scaled
value `127.5` separates truncation (127) from rounding (128). -/
noncomputable def fiveFrames : List GrayImage :=
  [constFrame 1 1 1, constFrame 1 1 1, constFrame 1 1 3, constFrame 1 1 3, constFrame 1 1 2]

theorem twc_five : temporalWindowContrast 1 fiveFrames 0 0 = 1 / 2 := by
  unfold temporalWindowContrast fiveFrames
  rw [Finset.sum_range_one, Finset.sum_range_one]
  simp only [pixelContrast, pixelSeries, List.map_cons, List.map_nil, grayAt, constFrame]
  norm_num [Real.sqrt_one]

/-- C3 counterexample: on the five 1×1 frames the computed contrast is exactly
`1/2`, the code stores `byte(min(0.5*255, 255)) = ⌊127.5⌋ = 127`, while the
claimed formula `min(round(c*255), 255)` gives `round(127.5) = 128`. -/
theorem scaling_rounds_cex :
    (calculateContrastMap 1 1 fiveFrames).pix 0 0 = 127 ∧
      min (Int.toNat (round (temporalWindowContrast 1 fiveFrames 0 0 * 255))) 255 = 128 := by
  constructor
  · have hx : (0 : ℕ) < ((fiveFrames.headI.width : ℤ) - 1 + 1).toNat := by
      norm_num [fiveFrames, constFrame, List.headI]
    have hy : (0 : ℕ) < ((fiveFrames.headI.height : ℤ) - 1 + 1).toNat := by
      norm_num [fiveFrames, constFrame, List.headI]
    rw [calculateContrastMap_pix _ _ _ _ _ (le_refl 1) hx hy, twc_five]
    unfold scale
    have hfl : ⌊(1 / 2 : ℝ) * 255⌋ = 127 := by
      rw [Int.floor_eq_iff]
      constructor
      · push_cast
        linarith
      · push_cast
        linarith
    rw [hfl]
    decide
  · rw [twc_five]
    have hrd : round ((1 / 2 : ℝ) * 255) = 128 := by
      rw [round_eq]
      have : ⌊(1 / 2 : ℝ) * 255 + 1 / 2⌋ = 128 := by
        rw [Int.floor_eq_iff]
        constructor
        · push_cast
          linarith
        · push_cast
          linarith
      exact this
    rw [hrd]
    decide

/-- C3 amended: an in-range cell of the output holds
`min(⌊contrast * 255⌋, 255)` — truncation toward zero, not rounding to the
nearest integer; values mapping above 255 are still clamped to exactly 255. -/
theorem scaling_floor_law (numWorkers windowSize : ℕ) (images : List GrayImage)
    (x y : ℕ) (hK : 1 ≤ numWorkers)
    (hx : x < (calculateContrastMap numWorkers windowSize images).width)
    (hy : y < (calculateContrastMap numWorkers windowSize images).height) :
    (calculateContrastMap numWorkers windowSize images).pix x y =
      min (Int.toNat ⌊temporalWindowContrast windowSize images x y * 255⌋) 255 := by
  have hx' : x < ((images.headI.width : ℤ) - windowSize + 1).toNat := hx
  have hy' : y < ((images.headI.height : ℤ) - windowSize + 1).toNat := hy
  rw [calculateContrastMap_pix _ _ _ _ _ hK hx' hy']
  rfl

theorem scaling_floor_law_witness :
    1 ≤ 1 ∧
      0 < (calculateContrastMap 1 1 [constFrame 3 3 50, constFrame 3 3 150]).width ∧
      0 < (calculateContrastMap 1 1 [constFrame 3 3 50, constFrame 3 3 150]).height ∧
      (calculateContrastMap 1 1 [constFrame 3 3 50, constFrame 3 3 150]).pix 0 0 =
        min (Int.toNat ⌊temporalWindowContrast 1
          [constFrame 3 3 50, constFrame 3 3 150] 0 0 * 255⌋) 255 :=
  ⟨le_refl 1,
    by norm_num [calculateContrastMap, constFrame, List.headI],
    by norm_num [calculateContrastMap, constFrame, List.headI],
    scaling_floor_law 1 1 [constFrame 3 3 50, constFrame 3 3 150] 0 0 (le_refl 1)
      (by norm_num [calculateContrastMap, constFrame, List.headI])
      (by norm_num [calculateContrastMap, constFrame, List.headI])⟩

/-! ### Validation: the code has none -/

/-- C2 counterexample: with two 3×3 frames and window size 4 the spec's
precondition `windowSize ≤ min(W, H)` is violated, yet `calculateContrastMap`
does not fail: it runs to completion and returns an ordinary (empty, 0×0)
`ContrastMap` — there is no `ValidationError` anywhere in the computation. -/
theorem no_validation_cex :
    specValidInput 4 [constFrame 3 3 100, constFrame 3 3 100] = false ∧
      calculateContrastMap 1 4 [constFrame 3 3 100, constFrame 3 3 100] =
        ContrastMap.mk 0 0 (fun _ _ => 0) := by
  constructor
  · decide
  · unfold calculateContrastMap
    norm_num [constFrame, List.headI]

/-- With mismatched frame dimensions (3×3 and 2×2), a pixel covered by both
frames has the series `[100, 60]`: mean 80, sample variance 800, contrast
`√800 / 80`. -/
theorem twc_mm_in (x y : ℕ) (hx : x < 2) (hy : y < 2) :
    temporalWindowContrast 1 [constFrame 3 3 100, constFrame 2 2 60] x y =
      Real.sqrt 800 / 80 := by
  have hx3 : x < 3 := by omega
  have hy3 : y < 3 := by omega
  unfold temporalWindowContrast
  rw [Finset.sum_range_one, Finset.sum_range_one]
  simp only [pixelContrast, pixelSeries, List.map_cons, List.map_nil, grayAt, constFrame]
  norm_num [hx, hy, hx3, hy3]

/-- With mismatched frame dimensions, a pixel outside the smaller frame reads
intensity 0 there: series `[100, 0]`, mean 50, sample variance 5000, contrast
`√5000 / 50`. -/
theorem twc_mm_border (x y : ℕ) (hx : x < 3) (hy : y < 3) (hno : ¬(x < 2 ∧ y < 2)) :
    temporalWindowContrast 1 [constFrame 3 3 100, constFrame 2 2 60] x y =
      Real.sqrt 5000 / 50 := by
  unfold temporalWindowContrast
  rw [Finset.sum_range_one, Finset.sum_range_one]
  simp only [pixelContrast, pixelSeries, List.map_cons, List.map_nil, grayAt, constFrame]
  norm_num [hx, hy, hno]

theorem scale_sqrt800 : scale (Real.sqrt 800 / 80) = 90 := by
  have hs1 : (480 / 17 : ℝ) ≤ Real.sqrt 800 :=
    (Real.le_sqrt' (by norm_num)).mpr (by norm_num)
  have hs2 : Real.sqrt 800 < (1456 / 51 : ℝ) :=
    (Real.sqrt_lt' (by norm_num)).mpr (by norm_num)
  unfold scale
  have hfl : ⌊Real.sqrt 800 / 80 * 255⌋ = 90 := by
    rw [Int.floor_eq_iff]
    constructor
    · push_cast
      linarith
    · push_cast
      linarith
  rw [hfl]
  decide

theorem scale_sqrt5000_50 : scale (Real.sqrt 5000 / 50) = 255 := by
  have hs1 : (50 : ℝ) ≤ Real.sqrt 5000 :=
    (Real.le_sqrt' (by norm_num)).mpr (by norm_num)
  unfold scale
  have hge : (255 : ℤ) ≤ ⌊Real.sqrt 5000 / 50 * 255⌋ := by
    rw [Int.le_floor]
    push_cast
    linarith
  refine min_eq_right ?_
  omega

/-- C2 amended: the code performs no input validation.  On the
precondition-violating input of two frames with mismatched dimensions
(3×3 all-100 and 2×2 all-60, window size 1) it does not fail with any error:
it computes a full 3×3 map, reading out-of-bounds pixels of the smaller frame
as intensity 0 (cells covered by both frames get 90, the others clamp
to 255). -/
theorem no_validation_mismatched_dims :
    specValidInput 1 [constFrame 3 3 100, constFrame 2 2 60] = false ∧
      (calculateContrastMap 1 1 [constFrame 3 3 100, constFrame 2 2 60]).width = 3 ∧
      (calculateContrastMap 1 1 [constFrame 3 3 100, constFrame 2 2 60]).height = 3 ∧
      (calculateContrastMap 1 1 [constFrame 3 3 100, constFrame 2 2 60]).pix 0 0 = 90 ∧
      (calculateContrastMap 1 1 [constFrame 3 3 100, constFrame 2 2 60]).pix 1 0 = 90 ∧
      (calculateContrastMap 1 1 [constFrame 3 3 100, constFrame 2 2 60]).pix 0 1 = 90 ∧
      (calculateContrastMap 1 1 [constFrame 3 3 100, constFrame 2 2 60]).pix 1 1 = 90 ∧
      (calculateContrastMap 1 1 [constFrame 3 3 100, constFrame 2 2 60]).pix 2 0 = 255 ∧
      (calculateContrastMap 1 1 [constFrame 3 3 100, constFrame 2 2 60]).pix 2 1 = 255 ∧
      (calculateContrastMap 1 1 [constFrame 3 3 100, constFrame 2 2 60]).pix 0 2 = 255 ∧
      (calculateContrastMap 1 1 [constFrame 3 3 100, constFrame 2 2 60]).pix 1 2 = 255 ∧
      (calculateContrastMap 1 1 [constFrame 3 3 100, constFrame 2 2 60]).pix 2 2 = 255 := by
  have hpix : ∀ x y : ℕ, x < 3 → y < 3 →
      (calculateContrastMap 1 1 [constFrame 3 3 100, constFrame 2 2 60]).pix x y =
        scale (temporalWindowContrast 1 [constFrame 3 3 100, constFrame 2 2 60] x y) := by
    intro x y hx hy
    refine calculateContrastMap_pix _ _ _ _ _ (le_refl 1) ?_ ?_ <;>
      · norm_num [constFrame, List.headI]
        omega
  refine ⟨by decide, ?_, ?_, ?_, ?_, ?_, ?_, ?_, ?_, ?_, ?_, ?_⟩
  · unfold calculateContrastMap
    simp only
    norm_num [constFrame, List.headI]
    decide
  · unfold calculateContrastMap
    simp only
    norm_num [constFrame, List.headI]
    decide
  · rw [hpix 0 0 (by norm_num) (by norm_num),
      twc_mm_in 0 0 (by norm_num) (by norm_num), scale_sqrt800]
  · rw [hpix 1 0 (by norm_num) (by norm_num),
      twc_mm_in 1 0 (by norm_num) (by norm_num), scale_sqrt800]
  · rw [hpix 0 1 (by norm_num) (by norm_num),
      twc_mm_in 0 1 (by norm_num) (by norm_num), scale_sqrt800]
  · rw [hpix 1 1 (by norm_num) (by norm_num),
      twc_mm_in 1 1 (by norm_num) (by norm_num), scale_sqrt800]
  · rw [hpix 2 0 (by norm_num) (by norm_num),
      twc_mm_border 2 0 (by norm_num) (by norm_num) (by norm_num), scale_sqrt5000_50]
  · rw [hpix 2 1 (by norm_num) (by norm_num),
      twc_mm_border 2 1 (by norm_num) (by norm_num) (by norm_num), scale_sqrt5000_50]
  · rw [hpix 0 2 (by norm_num) (by norm_num),
      twc_mm_border 0 2 (by norm_num) (by norm_num) (by norm_num), scale_sqrt5000_50]
  · rw [hpix 1 2 (by norm_num) (by norm_num),
      twc_mm_border 1 2 (by norm_num) (by norm_num) (by norm_num), scale_sqrt5000_50]
  · rw [hpix 2 2 (by norm_num) (by norm_num),
      twc_mm_border 2 2 (by norm_num) (by norm_num) (by norm_num), scale_sqrt5000_50]

end GoTlasca
